import Mathlib

/-!
# NoteVault storage layer: a shallow embedding

This file embeds the repository's persistence layer (`server/storage.ts`,
`server/database.ts`, `shared/schema.ts`) in Lean 4 and proves the spec's
claims about it.

Modelling choices:

* The SQLite database is a pair of row lists (`categories`, `notes`), in
  insertion order.  Timestamps are `Nat` (epoch seconds, the stored form);
  the current time is passed as an explicit parameter wherever the source
  calls `new Date()`.
* Generated `randomUUID()` identifiers are passed as explicit parameters;
  their uniqueness is stated as a hypothesis where a claim needs it.
* The `tags` column stores a JSON-serialized string (`JSON.stringify` of a
  string array).  `encodeTags` models `JSON.stringify` on string arrays
  (escaping `"`, `\` and control characters exactly as ECMA-262's
  QuoteJSONString does); `parseTags` models `JSON.parse` restricted to the
  sublanguage JSON.stringify emits for string arrays (no interstitial
  whitespace).  A `JSON.parse` exception is modelled as `none`.
* SQL `LIKE` is modelled by `likeMatch` (`%` matches any sequence, `_` any
  single character, letters compared ASCII-case-insensitively, SQLite's
  default).  JavaScript's `toLowerCase` is modelled by ASCII lowering.
* The `NOT NULL REFERENCES categories(id) ON DELETE CASCADE` foreign key,
  with `foreign_keys = ON`, is modelled in the engine-level insert/update
  operations, which return `none` where the engine would throw.  Primary-key
  uniqueness is not re-checked on insert; freshness of generated ids is a
  hypothesis where needed.
-/

/-! ## Strings: ASCII lowering -/

/-- ASCII lowering of one character, as both SQLite's `LIKE` folding and the
relevant (ASCII) fragment of JavaScript `String.prototype.toLowerCase` do. -/
def lowerChar (c : Char) : Char := c.toLower

/-- Model of `search.toLowerCase()` on the character list of a string. -/
def lowerStr (s : String) : String := String.mk (s.toList.map lowerChar)

/-! ## JSON serialization of string arrays (`JSON.stringify` / `JSON.parse`) -/

/-- Hex digit for a nibble, lowercase, as in `\u00XX` escapes. -/
def hexDigit (n : Nat) : Char :=
  if n < 10 then Char.ofNat (48 + n) else Char.ofNat (87 + n)

/-- Value of a hex digit character, if it is one. -/
def hexVal (c : Char) : Option Nat :=
  if 48 ≤ c.toNat ∧ c.toNat ≤ 57 then some (c.toNat - 48)
  else if 97 ≤ c.toNat ∧ c.toNat ≤ 102 then some (c.toNat - 87)
  else if 65 ≤ c.toNat ∧ c.toNat ≤ 70 then some (c.toNat - 55)
  else none

/-- JSON escaping of one character inside a double-quoted string literal,
as `JSON.stringify` performs it: `"` and `\` are backslash-escaped, the named
control characters get their short escapes, remaining control characters
become `\u00XX`, and every other character stands for itself. -/
def escChar (c : Char) : List Char :=
  if c = '"' then ['\\', '"']
  else if c = '\\' then ['\\', '\\']
  else if c.toNat < 32 then
    if c = Char.ofNat 8 then ['\\', 'b']
    else if c = Char.ofNat 9 then ['\\', 't']
    else if c = Char.ofNat 10 then ['\\', 'n']
    else if c = Char.ofNat 12 then ['\\', 'f']
    else if c = Char.ofNat 13 then ['\\', 'r']
    else ['\\', 'u', '0', '0', hexDigit (c.toNat / 16), hexDigit (c.toNat % 16)]
  else [c]

/-- The characters of the JSON string literal for `s`, quotes included. -/
def encodeStringChars (s : List Char) : List Char :=
  '"' :: s.flatMap escChar ++ ['"']

/-- Tail of a serialized JSON array after its first element: each further
element is preceded by a comma, and the array is closed with `]`. -/
def encodeTagsTail : List (List Char) → List Char
  | [] => [']']
  | s :: rest => ',' :: encodeStringChars s ++ encodeTagsTail rest

/-- Characters of `JSON.stringify` applied to a string array. -/
def encodeTagsChars : List (List Char) → List Char
  | [] => ['[', ']']
  | s :: rest => '[' :: encodeStringChars s ++ encodeTagsTail rest

/-- `JSON.stringify(tags)` for a string array, as stored in the `tags` column. -/
def encodeTags (tags : List String) : String :=
  String.mk (encodeTagsChars (tags.map String.toList))

/-- Parse the body of a JSON string literal (the opening quote already
consumed) up to its closing quote, returning the decoded characters and the
unconsumed remainder.  `none` models a `JSON.parse` syntax error. -/
def parseStringBody : List Char → Option (List Char × List Char)
  | [] => none
  | c :: rest =>
    if c = '"' then some ([], rest)
    else if c = '\\' then
      match rest with
      | [] => none
      | e :: rest2 =>
        if e = '"' then (parseStringBody rest2).map (fun p => ('"' :: p.1, p.2))
        else if e = '\\' then (parseStringBody rest2).map (fun p => ('\\' :: p.1, p.2))
        else if e = '/' then (parseStringBody rest2).map (fun p => ('/' :: p.1, p.2))
        else if e = 'b' then (parseStringBody rest2).map (fun p => (Char.ofNat 8 :: p.1, p.2))
        else if e = 't' then (parseStringBody rest2).map (fun p => (Char.ofNat 9 :: p.1, p.2))
        else if e = 'n' then (parseStringBody rest2).map (fun p => (Char.ofNat 10 :: p.1, p.2))
        else if e = 'f' then (parseStringBody rest2).map (fun p => (Char.ofNat 12 :: p.1, p.2))
        else if e = 'r' then (parseStringBody rest2).map (fun p => (Char.ofNat 13 :: p.1, p.2))
        else if e = 'u' then
          match rest2 with
          | h1 :: h2 :: h3 :: h4 :: rest3 =>
            match hexVal h1, hexVal h2, hexVal h3, hexVal h4 with
            | some v1, some v2, some v3, some v4 =>
              (parseStringBody rest3).map
                (fun p => (Char.ofNat (((v1 * 16 + v2) * 16 + v3) * 16 + v4) :: p.1, p.2))
            | _, _, _, _ => none
          | _ => none
        else none
    else (parseStringBody rest).map (fun p => (c :: p.1, p.2))

/-- Parse a comma-or-bracket-separated run of JSON string literals, fuelled by
the input length: the elements of a serialized array after `[`. -/
def parseElemsF : Nat → List Char → Option (List (List Char) × List Char)
  | 0, _ => none
  | fuel + 1, '"' :: rest =>
    match parseStringBody rest with
    | none => none
    | some (s, rest2) =>
      match rest2 with
      | ']' :: rest3 => some ([s], rest3)
      | ',' :: rest3 => (parseElemsF fuel rest3).map (fun p => (s :: p.1, p.2))
      | _ => none
  | _ + 1, _ => none

/-- `JSON.parse` on the `tags` column, restricted to the sublanguage emitted
by `JSON.stringify` on string arrays.  `none` models a thrown syntax error or
a value that is not a string array. -/
def parseTags (s : String) : Option (List String) :=
  match s.toList with
  | '[' :: ']' :: [] => some []
  | '[' :: rest =>
    match parseElemsF rest.length rest with
    | some (elems, []) => some (elems.map String.mk)
    | _ => none
  | _ => none

/-! ## SQL `LIKE` -/

/-- One `LIKE` pattern character against one text character:
ASCII-case-insensitive equality (SQLite's default `LIKE` folding). -/
def charLikeEq (p c : Char) : Bool := lowerChar p == lowerChar c

/-- Fuelled evaluator for SQLite `LIKE`: `%` matches any (possibly empty)
character sequence, `_` matches exactly one character, anything else matches
itself case-insensitively.  Every recursive step shortens pattern + text, so
any fuel above that sum is adequate. -/
def likeMatchF : Nat → List Char → List Char → Bool
  | 0, _, _ => false
  | fuel + 1, pattern, text =>
    match pattern, text with
    | [], [] => true
    | [], _ :: _ => false
    | '%' :: ps, t =>
      likeMatchF fuel ps t ||
        (match t with
         | [] => false
         | _ :: ts => likeMatchF fuel ('%' :: ps) ts)
    | '_' :: ps, _ :: ts => likeMatchF fuel ps ts
    | '_' :: _, [] => false
    | p :: ps, c :: ts => charLikeEq p c && likeMatchF fuel ps ts
    | _ :: _, [] => false

/-- SQLite `LIKE` on character lists, run with adequate fuel. -/
def likeMatch (pattern text : List Char) : Bool :=
  likeMatchF (pattern.length + text.length + 1) pattern text

/-- `column LIKE pattern` on whole strings. -/
def likeStr (pattern text : String) : Bool :=
  likeMatch pattern.toList text.toList

/-- Case-insensitive substring containment, the relation the spec's words
"case-insensitive substring match" denote (for comparison with the `LIKE`
behaviour the code actually has). -/
def containsCI (needle hay : String) : Bool :=
  decide ((needle.toList.map lowerChar) <:+: (hay.toList.map lowerChar))

/-! ## Data model (`shared/schema.ts`) -/

/-- A row of the `categories` table. -/
structure Category where
  id : String
  name : String
  color : String
  createdAt : Nat
  deriving Repr, DecidableEq

/-- A row of the `notes` table; `tags` holds the JSON-serialized string the
TEXT column stores. -/
structure NoteRow where
  id : String
  title : String
  content : String
  categoryId : String
  tags : String
  createdAt : Nat
  updatedAt : Nat
  deriving Repr, DecidableEq

/-- The in-memory `Note` shape the repository returns: `tags` deserialized
into a sequence. -/
structure Note where
  id : String
  title : String
  content : String
  categoryId : String
  tags : List String
  createdAt : Nat
  updatedAt : Nat
  deriving Repr, DecidableEq

/-- The SQLite database: the two tables, rows in insertion order. -/
structure DB where
  categories : List Category
  notes : List NoteRow
  deriving Repr, DecidableEq

/-- `InsertNote` (`insertNoteSchema`): `content` and `tags` optional. -/
structure InsertNote where
  title : String
  content : Option String
  categoryId : String
  tags : Option (List String)
  deriving Repr, DecidableEq

/-- `UpdateNote` (`insertNoteSchema.partial()`): every field optional;
`none` models an absent field. -/
structure UpdateNote where
  title : Option String
  content : Option String
  categoryId : Option String
  tags : Option (List String)
  deriving Repr, DecidableEq

/-- `Partial<InsertCategory>`: both fields optional. -/
structure UpdateCategory where
  name : Option String
  color : Option String
  deriving Repr, DecidableEq

/-! ## Engine level (`server/database.ts` and the SQL constraints) -/

/-- The foreign-key target check: `category_id ... REFERENCES categories(id)`
with `foreign_keys = ON`. -/
def fkSatisfied (db : DB) (catId : String) : Bool :=
  db.categories.any (fun c => c.id == catId)

/-- Engine insert into `notes`: rejects (throws, modelled as `none`) a row
whose `categoryId` references no existing category. -/
def insertNoteRow (db : DB) (r : NoteRow) : Option DB :=
  if fkSatisfied db r.categoryId then some ⟨db.categories, db.notes ++ [r]⟩ else none

/-- Engine insert into `categories` (no outgoing constraints). -/
def insertCategoryRow (db : DB) (c : Category) : DB :=
  ⟨db.categories ++ [c], db.notes⟩

/-- Engine delete from `notes` of every row whose `categoryId` equals `id`
(`db.delete(notes).where(eq(notes.categoryId, id))`), returning the new
state and the number of rows removed (`result.changes`). -/
def deleteNoteRowsByCategory (db : DB) (id : String) : DB × Nat :=
  (⟨db.categories, db.notes.filter (fun n => !(n.categoryId == id))⟩,
   (db.notes.filter (fun n => n.categoryId == id)).length)

/-- Engine delete from `categories` by id, with `ON DELETE CASCADE` removing
the dependent `notes` rows when a category row is actually deleted; returns
the new state and `result.changes`. -/
def deleteCategoryRow (db : DB) (id : String) : DB × Nat :=
  let changes := (db.categories.filter (fun c => c.id == id)).length
  (⟨db.categories.filter (fun c => !(c.id == id)),
    if changes > 0 then db.notes.filter (fun n => !(n.categoryId == id)) else db.notes⟩,
   changes)

/-- Engine delete from `notes` by primary key; returns the new state and
`result.changes`. -/
def deleteNoteRowById (db : DB) (id : String) : DB × Nat :=
  (⟨db.categories, db.notes.filter (fun n => !(n.id == id))⟩,
   (db.notes.filter (fun n => n.id == id)).length)

/-- The column assignments `updateNote` sends to the engine
(`updateForDb`): each updatable column only when present, `updatedAt`
always. -/
def applyNoteRowUpdate (u : UpdateNote) (now : Nat) (r : NoteRow) : NoteRow :=
  { r with
    title := u.title.getD r.title
    content := u.content.getD r.content
    categoryId := u.categoryId.getD r.categoryId
    tags := (u.tags.map encodeTags).getD r.tags
    updatedAt := now }

/-- Engine `UPDATE notes SET ... WHERE id = ?`: rejects (throws, modelled as
`none`) when the assignment sets `categoryId` to a value referencing no
category while some row is actually updated; otherwise rewrites the matching
rows in place. -/
def updateNoteRows (db : DB) (id : String) (u : UpdateNote) (now : Nat) : Option DB :=
  match u.categoryId with
  | some c =>
    if db.notes.any (fun r => r.id == id) && !(fkSatisfied db c) then none
    else some ⟨db.categories, db.notes.map (fun r => if r.id == id then applyNoteRowUpdate u now r else r)⟩
  | none =>
    some ⟨db.categories, db.notes.map (fun r => if r.id == id then applyNoteRowUpdate u now r else r)⟩

/-- The column assignments `updateCategory` sends to the engine: each field
only when present. -/
def applyCategoryUpdate (u : UpdateCategory) (c : Category) : Category :=
  { c with name := u.name.getD c.name, color := u.color.getD c.color }

/-- `db.update(categories).set(...)` with a `where` on the id: the ORM
rejects an empty assignment set before emitting any SQL ("No values to
set"), modelled as `none`; otherwise it rewrites the matching rows in
place. -/
def updateCategoryRows (db : DB) (id : String) (u : UpdateCategory) : Option DB :=
  if u.name = none ∧ u.color = none then none
  else
    some ⟨db.categories.map (fun c => if c.id == id then applyCategoryUpdate u c else c),
          db.notes⟩

/-- The four fixed default categories `seedDatabase` inserts (ids are the
generated `randomUUID()`s, passed explicitly). -/
def defaultCategories (i1 i2 i3 i4 : String) (now : Nat) : List Category :=
  [⟨i1, "Work Notes", "#3b82f6", now⟩,
   ⟨i2, "Personal", "#10b981", now⟩,
   ⟨i3, "Ideas", "#ef4444", now⟩,
   ⟨i4, "Prompts", "#8b5cf6", now⟩]

/-- `seedDatabase`: inserts the four default categories, one by one, if and
only if zero categories currently exist. -/
def seedDatabase (db : DB) (i1 i2 i3 i4 : String) (now : Nat) : DB :=
  if (db.categories).length = 0 then
    (defaultCategories i1 i2 i3 i4 now).foldl insertCategoryRow db
  else db

/-! ## Repository (`server/storage.ts`, class `SqliteStorage`) -/

/-- Materialize a `notes` row as the in-memory `Note`:
`tags: JSON.parse(note.tags)` (a parse exception is modelled as `none`). -/
def noteFromRow (r : NoteRow) : Option Note :=
  (parseTags r.tags).map (fun ts =>
    ⟨r.id, r.title, r.content, r.categoryId, ts, r.createdAt, r.updatedAt⟩)

/-- JavaScript truthiness of the optional string arguments
(`if (categoryId)`, `if (search)`): present and non-empty. -/
def strTruthy : Option String → Bool
  | none => false
  | some s => !(s == "")

/-- Model of `orderBy(notes.updatedAt)`: stable sort, ascending. -/
def sortByUpdatedAt (rows : List NoteRow) : List NoteRow :=
  rows.insertionSort (fun a b => a.updatedAt ≤ b.updatedAt)

instance : IsTotal NoteRow (fun a b => a.updatedAt ≤ b.updatedAt) :=
  ⟨fun a b => Nat.le_total a.updatedAt b.updatedAt⟩

instance : IsTrans NoteRow (fun a b => a.updatedAt ≤ b.updatedAt) :=
  ⟨fun _ _ _ => Nat.le_trans⟩

/-- `getCategories()`: all categories ordered by `createdAt`. -/
def getCategories (db : DB) : List Category :=
  db.categories.insertionSort (fun a b => a.createdAt ≤ b.createdAt)

/-- `getCategory(id)`: first row with that id, `undefined` ↦ `none`. -/
def getCategory (db : DB) (id : String) : Option Category :=
  db.categories.find? (fun c => c.id == id)

/-- `createCategory(insertCategory)`: generated id and current time passed
explicitly; `color: insertCategory.color || "#3b82f6"` (JS falsiness: absent
or empty string both take the default). -/
def createCategory (db : DB) (id : String) (now : Nat) (name : String)
    (color : Option String) : DB × Category :=
  let category : Category :=
    ⟨id, name,
     match color with
     | some c => if c == "" then "#3b82f6" else c
     | none => "#3b82f6",
     now⟩
  (insertCategoryRow db category, category)

/-- `updateCategory(id, categoryUpdate)`: not-found sentinel if the id is
absent (before any engine call); otherwise `{ ...existing, ...categoryUpdate }`
is returned and the same assignments are sent to the engine — whose thrown
fault on an empty assignment set propagates, modelled as the outer `none`. -/
def updateCategory (db : DB) (id : String) (u : UpdateCategory) :
    Option (DB × Option Category) :=
  match getCategory db id with
  | none => some (db, none)
  | some existing =>
    (updateCategoryRows db id u).map (fun db2 => (db2, some (applyCategoryUpdate u existing)))

/-- `deleteCategory(id)`: explicitly delete the notes of the category first,
then the category; report whether a category row was removed. -/
def deleteCategory (db : DB) (id : String) : DB × Bool :=
  let db1 := (deleteNoteRowsByCategory db id).1
  let res := deleteCategoryRow db1 id
  (res.1, res.2 > 0)

/-- The `or(like(title), like(content), like(tags))` search condition, on the
pattern `%searchLower%`. -/
def searchCond (searchLower : String) (r : NoteRow) : Bool :=
  likeStr ("%" ++ searchLower ++ "%") r.title ||
  likeStr ("%" ++ searchLower ++ "%") r.content ||
  likeStr ("%" ++ searchLower ++ "%") r.tags

/-- The `whereConditions` array `getNotes` assembles. -/
def whereConditions (categoryId search : Option String) : List (NoteRow → Bool) :=
  (if strTruthy categoryId then [fun r => r.categoryId == categoryId.getD ""] else []) ++
  (if strTruthy search then [searchCond (lowerStr (search.getD ""))] else [])

/-- Materialize a list of rows in order, propagating the first `JSON.parse`
failure (the `result.map(...)` over rows, whose first throw aborts it). -/
def notesFromRows : List NoteRow → Option (List Note)
  | [] => some []
  | r :: rs =>
    match noteFromRow r with
    | none => none
    | some n => (notesFromRows rs).map (fun ns => n :: ns)

/-- `getNotes(categoryId?, search?)`: filter by the assembled conditions (if
any), order by `updatedAt`, deserialize each row's tags, reverse for
newest-first.  `none` models a `JSON.parse` exception on some row. -/
def getNotes (db : DB) (categoryId search : Option String) : Option (List Note) :=
  let conds := whereConditions categoryId search
  let rows :=
    if conds.length > 0 then
      sortByUpdatedAt (db.notes.filter (fun r => conds.all (fun cond => cond r)))
    else
      sortByUpdatedAt db.notes
  (notesFromRows rows).map List.reverse

/-- `getNote(id)`: first row with that id, tags deserialized; both an absent
id and a parse exception give `none` (the source returns `undefined` for the
former and throws for the latter; no claim distinguishes them on a row the
repository itself wrote). -/
def getNote (db : DB) (id : String) : Option Note :=
  (db.notes.find? (fun r => r.id == id)).bind noteFromRow

/-- `createNote(insertNote)`: defaults `content` to `""` and `tags` to `[]`
(JS `||`: an empty string also takes the default, an empty array does not),
stamps both timestamps with the same instant, serializes tags for storage and
returns the sequence form.  `none` models the engine rejecting the foreign
key. -/
def createNote (db : DB) (id : String) (now : Nat) (n : InsertNote) :
    Option (DB × Note) :=
  let note : Note :=
    ⟨id, n.title,
     match n.content with
     | some c => if c == "" then "" else c
     | none => "",
     n.categoryId, n.tags.getD [], now, now⟩
  let noteForDb : NoteRow :=
    ⟨note.id, note.title, note.content, note.categoryId, encodeTags note.tags,
     note.createdAt, note.updatedAt⟩
  (insertNoteRow db noteForDb).map (fun db2 => (db2, note))

/-- `updateNote(id, noteUpdate)`: not-found sentinel if absent; otherwise
merge the present fields over the existing note, always refresh `updatedAt`,
send only the present columns (plus `updatedAt`) to the engine, and return
the merged record.  The outer `none` models an engine foreign-key throw. -/
def updateNote (db : DB) (id : String) (u : UpdateNote) (now : Nat) :
    Option (DB × Option Note) :=
  match getNote db id with
  | none => some (db, none)
  | some existing =>
    let updated : Note :=
      ⟨existing.id, u.title.getD existing.title, u.content.getD existing.content,
       u.categoryId.getD existing.categoryId, u.tags.getD existing.tags,
       existing.createdAt, now⟩
    (updateNoteRows db id u now).map (fun db2 => (db2, some updated))

/-- `deleteNote(id)`: delete by id, report whether a row was removed. -/
def deleteNote (db : DB) (id : String) : DB × Bool :=
  let res := deleteNoteRowById db id
  (res.1, res.2 > 0)

/-- `getCategoryNoteCounts()`: fold over all notes, counting per
`categoryId`; the JS object with `(counts[id] || 0)` reads is modelled as a
total function defaulting to `0`. -/
def getCategoryNoteCounts (db : DB) : String → Nat :=
  db.notes.foldl
    (fun counts n => fun k => if k == n.categoryId then counts k + 1 else counts k)
    (fun _ => 0)

/-! ## Spec-side descriptions and invariants -/

/-- Spec-side description of `listNotes` (for the refinement theorem): keep
exactly the notes passing both filters — exact `categoryId` equality when a
non-empty `categoryId` is given, and, when a non-empty `search` is given, the
`LIKE` pattern `%lowercased-search%` matching the title, the content or the
serialized tags (OR semantics) — ordered by `updatedAt` ascending, then
reversed, tags deserialized. -/
def listNotesSpec (db : DB) (categoryId search : Option String) : Option (List Note) :=
  let keep := fun r =>
    (!(strTruthy categoryId) || r.categoryId == categoryId.getD "") &&
    (!(strTruthy search) || searchCond (lowerStr (search.getD "")) r)
  (notesFromRows (sortByUpdatedAt (db.notes.filter keep))).map List.reverse

/-- The referential invariant: every note's `categoryId` names an existing
category. -/
def orphanFree (db : DB) : Prop :=
  ∀ r ∈ db.notes, ∃ c ∈ db.categories, c.id = r.categoryId

instance (db : DB) : Decidable (orphanFree db) := by
  unfold orphanFree; infer_instance

/-- An `UpdateNote` carrying only a title, the partial input of the frame
claim. -/
def titleOnlyUpdate (t : String) : UpdateNote := ⟨some t, none, none, none⟩

/-! ## Concrete fixtures for witnesses and counterexamples -/

/-- A category fixture. -/
def wCat : Category := ⟨"c1", "Work Notes", "#3b82f6", 0⟩

/-- A second category fixture. -/
def wCat2 : Category := ⟨"c2", "Personal", "#10b981", 0⟩

/-- A stored note row fixture (tags column holds serialized `[]`). -/
def wRow : NoteRow := ⟨"n1", "abc", "x", "c1", "[]", 1, 1⟩

/-- The in-memory form of `wRow`. -/
def wNote : Note := ⟨"n1", "abc", "x", "c1", [], 1, 1⟩

/-- A one-category, one-note database fixture. -/
def wDB : DB := ⟨[wCat], [wRow]⟩

/-- A two-category, one-note database fixture. -/
def wDB2 : DB := ⟨[wCat, wCat2], [wRow]⟩

/-! ## Helper lemmas -/

theorem length_filter_pos_iff {α : Type} (p : α → Bool) (l : List α) :
    0 < (l.filter p).length ↔ ∃ a ∈ l, p a = true := by
  rw [List.length_pos_iff_exists_mem]
  constructor
  · rintro ⟨a, ha⟩
    exact ⟨a, (List.mem_filter.mp ha).1, (List.mem_filter.mp ha).2⟩
  · rintro ⟨a, hmem, hp⟩
    exact ⟨a, List.mem_filter.mpr ⟨hmem, hp⟩⟩

theorem find?_map_conditional {α : Type} (p : α → Bool) (f : α → α)
    (hp : ∀ x, p (f x) = p x) :
    ∀ l : List α,
      (l.map (fun x => if p x then f x else x)).find? p = (l.find? p).map f := by
  intro l
  induction l with
  | nil => rfl
  | cons a as ih =>
    by_cases h : p a = true
    · simp [List.find?_cons, h, hp]
    · simp only [Bool.not_eq_true] at h
      simp [List.find?_cons, h, ih]

theorem likeMatchF_all_percent :
    ∀ (fuel : Nat) (ps t : List Char), (∀ c ∈ ps, c = '%') → ps ≠ [] →
      ps.length + t.length < fuel → likeMatchF fuel ps t = true := by
  intro fuel
  induction fuel with
  | zero => intro ps t _ _ h; omega
  | succ f ih =>
    intro ps t hall hne hlen
    match ps, hne with
    | p :: ps', _ =>
      have hp : p = '%' := hall p (List.mem_cons_self p ps')
      subst hp
      match ps', t with
      | [], [] =>
        have hf : 0 < f := by simp at hlen; omega
        match f, hf with
        | f' + 1, _ => simp [likeMatchF]
      | [], c :: ts =>
        have : likeMatchF f ['%'] ts = true := by
          apply ih ['%'] ts (by intro c hc; simpa using hc) (by simp)
          simp at hlen ⊢; omega
        simp [likeMatchF, this]
      | q :: qs, t =>
        have : likeMatchF f (q :: qs) t = true := by
          apply ih (q :: qs) t (fun c hc => hall c (List.mem_cons_of_mem _ hc)) (by simp)
          simp at hlen ⊢; omega
        simp [likeMatchF, this]

theorem likeMatch_all_percent (ps t : List Char)
    (hall : ∀ c ∈ ps, c = '%') (hne : ps ≠ []) : likeMatch ps t = true := by
  exact likeMatchF_all_percent _ ps t hall hne (by omega)

/-! ## Claims -/

/-- C9: seeding is performed exactly once and only when zero categories
exist: from an empty store, initialization leaves exactly the four fixed
default categories (with their fixed colors) and no notes, so every
category's note count is 0; on a store with any category, seeding adds
nothing, and in particular running the seed a second time changes nothing. -/
theorem seedDatabase_spec (i1 i2 i3 i4 : String) (now : Nat) (db : DB) :
    seedDatabase ⟨[], []⟩ i1 i2 i3 i4 now = ⟨defaultCategories i1 i2 i3 i4 now, []⟩ ∧
    (∀ cid, getCategoryNoteCounts (seedDatabase ⟨[], []⟩ i1 i2 i3 i4 now) cid = 0) ∧
    (db.categories ≠ [] → seedDatabase db i1 i2 i3 i4 now = db) ∧
    seedDatabase (seedDatabase ⟨[], []⟩ i1 i2 i3 i4 now) i1 i2 i3 i4 now =
      seedDatabase ⟨[], []⟩ i1 i2 i3 i4 now := by
  have hempty : seedDatabase ⟨[], []⟩ i1 i2 i3 i4 now =
      ⟨defaultCategories i1 i2 i3 i4 now, []⟩ := rfl
  have hnonempty : ∀ d : DB, d.categories ≠ [] → seedDatabase d i1 i2 i3 i4 now = d := by
    intro d hd
    unfold seedDatabase
    rw [if_neg]
    simpa [List.length_eq_zero] using hd
  refine ⟨hempty, fun cid => rfl, hnonempty db, ?_⟩
  rw [hempty, hnonempty _ (by simp [defaultCategories])]

/-- C9 witness: seeding a store that already has a category adds nothing. -/
theorem seedDatabase_spec_witness :
    wDB.categories ≠ [] ∧ seedDatabase wDB "i1" "i2" "i3" "i4" 5 = wDB :=
  ⟨by decide, (seedDatabase_spec "i1" "i2" "i3" "i4" 5 wDB).2.2.1 (by decide)⟩

/-- C10 (implicit): the lowercased search string is interpolated unescaped
into the `LIKE` patterns, so `LIKE` metacharacters act as wildcards: with
search `"%"` and no category filter, the assembled condition keeps every
stored row, and `listNotes` returns exactly what it returns with no search
at all. -/
theorem getNotes_percent_returns_all (db : DB) :
    getNotes db none (some "%") = getNotes db none none ∧
    db.notes.filter
      (fun r => (whereConditions none (some "%")).all (fun cond => cond r)) = db.notes := by
  have hlower : lowerStr "%" = "%" := rfl
  have hcond : ∀ r : NoteRow, searchCond (lowerStr "%") r = true := by
    intro r
    have hpat : ("%" ++ lowerStr "%" ++ "%").toList = ['%', '%', '%'] := rfl
    unfold searchCond likeStr
    rw [hpat, likeMatch_all_percent _ _ (by decide) (by decide)]
    simp
  have hwc : whereConditions none (some "%") = [searchCond (lowerStr "%")] := by
    simp [whereConditions, strTruthy]
  have hwc0 : whereConditions none none = ([] : List (NoteRow → Bool)) := by
    simp [whereConditions, strTruthy]
  constructor
  · unfold getNotes
    rw [hwc, hwc0]
    norm_num
    rw [List.filter_eq_self.mpr (fun r _ => hcond r)]
  · rw [hwc]
    exact List.filter_eq_self.mpr (fun r _ => by simp [hcond r])

/-- C2: `deleteCategory(C)` removes exactly the notes whose `categoryId` is
`C`, removes the category, returns `true` exactly when a category with id
`C` existed (independent of the notes), and afterwards `getCategory(C)` is
the not-found sentinel. -/
theorem deleteCategory_spec (db : DB) (C : String) :
    (deleteCategory db C).1.notes = db.notes.filter (fun n => !(n.categoryId == C)) ∧
    (deleteCategory db C).1.categories = db.categories.filter (fun c => !(c.id == C)) ∧
    ((deleteCategory db C).2 = true ↔ ∃ c ∈ db.categories, c.id = C) ∧
    getCategory (deleteCategory db C).1 C = none := by
  unfold deleteCategory deleteNoteRowsByCategory deleteCategoryRow
  refine ⟨?_, rfl, ?_, ?_⟩
  · simp only
    split
    · exact List.filter_eq_self.mpr (fun a ha => (List.mem_filter.mp ha).2)
    · rfl
  · simp only [decide_eq_true_eq]
    rw [gt_iff_lt, length_filter_pos_iff]
    constructor
    · rintro ⟨c, hc, hb⟩; exact ⟨c, hc, by simpa using hb⟩
    · rintro ⟨c, hc, hb⟩; exact ⟨c, hc, by simpa using hb⟩
  · unfold getCategory
    simp only
    rw [List.find?_eq_none]
    intro c hc
    simpa using (List.mem_filter.mp hc).2

/-- C2 witness: on a concrete store, deleting an existing category returns
`true`, and the category is gone afterwards. -/
theorem deleteCategory_spec_witness :
    (deleteCategory wDB "c1").2 = true ∧ getCategory (deleteCategory wDB "c1").1 "c1" = none :=
  ⟨(deleteCategory_spec wDB "c1").2.2.1.mpr ⟨wCat, by decide, by decide⟩,
   (deleteCategory_spec wDB "c1").2.2.2⟩

/-- C6: for an absent id, the by-id operations fail only with the not-found
mode, as absent-value returns, not thrown faults: `getNote`/`getCategory`
and `updateNote`/`updateCategory` return the sentinel, `deleteNote`/
`deleteCategory` return `false`, each leaving the stored state unchanged (for
`deleteCategory` under the referential invariant, since its explicit
note-predelete touches only notes of the deleted category); and
`deleteNote(id)` returns `true` exactly when a row was removed. -/
theorem absent_id_not_found (db : DB) (id : String) (u : UpdateNote)
    (uc : UpdateCategory) (now : Nat) :
    ((∀ r ∈ db.notes, r.id ≠ id) →
       getNote db id = none ∧
       updateNote db id u now = some (db, none) ∧
       deleteNote db id = (db, false)) ∧
    ((∀ c ∈ db.categories, c.id ≠ id) →
       getCategory db id = none ∧
       updateCategory db id uc = some (db, none) ∧
       (orphanFree db → deleteCategory db id = (db, false))) ∧
    ((deleteNote db id).2 = true ↔ ∃ r ∈ db.notes, r.id = id) := by
  refine ⟨?_, ?_, ?_⟩
  · intro habs
    have hfind : db.notes.find? (fun r => r.id == id) = none :=
      List.find?_eq_none.mpr (fun r hr => by simpa using habs r hr)
    have hget : getNote db id = none := by
      unfold getNote; rw [hfind]; rfl
    refine ⟨hget, ?_, ?_⟩
    · unfold updateNote; rw [hget]
    · unfold deleteNote deleteNoteRowById
      have h1 : db.notes.filter (fun n => !(n.id == id)) = db.notes :=
        List.filter_eq_self.mpr (fun r hr => by simpa using habs r hr)
      have h2 : decide ((db.notes.filter (fun n => n.id == id)).length > 0) = false := by
        apply decide_eq_false
        rw [gt_iff_lt, length_filter_pos_iff]
        rintro ⟨r, hr, hb⟩
        exact habs r hr (by simpa using hb)
      simp only [h1, h2]
  · intro habs
    have hfind : db.categories.find? (fun c => c.id == id) = none :=
      List.find?_eq_none.mpr (fun c hc => by simpa using habs c hc)
    have hget : getCategory db id = none := hfind
    refine ⟨hget, ?_, ?_⟩
    · unfold updateCategory; rw [hget]
    · intro horph
      unfold deleteCategory deleteNoteRowsByCategory deleteCategoryRow
      have hnotes : db.notes.filter (fun n => !(n.categoryId == id)) = db.notes := by
        apply List.filter_eq_self.mpr
        intro n hn
        obtain ⟨c, hc, hcid⟩ := horph n hn
        simp only [Bool.not_eq_eq_eq_not, Bool.not_true, beq_eq_false_iff_ne, ne_eq]
        intro hEq
        exact habs c hc (hcid.trans hEq)
      have hcats0 : db.categories.filter (fun c => c.id == id) = [] := by
        rw [List.filter_eq_nil_iff]
        intro c hc
        simpa using habs c hc
      have hcats : db.categories.filter (fun c => !(c.id == id)) = db.categories :=
        List.filter_eq_self.mpr (fun c hc => by simpa using habs c hc)
      simp only [hnotes, hcats0, hcats, List.length_nil]
      rfl
  · unfold deleteNote deleteNoteRowById
    simp only [decide_eq_true_eq]
    rw [gt_iff_lt, length_filter_pos_iff]
    constructor
    · rintro ⟨r, hr, hb⟩; exact ⟨r, hr, by simpa using hb⟩
    · rintro ⟨r, hr, hb⟩; exact ⟨r, hr, by simpa using hb⟩

/-- C6 witness: on a concrete store, an absent note id gives the sentinel,
the harmless `false` delete, and the remove-iff-present equivalence. -/
theorem absent_id_not_found_witness :
    getNote wDB "zz" = none ∧ deleteNote wDB "zz" = (wDB, false) ∧
    getCategory wDB "zz" = none ∧ deleteCategory wDB "zz" = (wDB, false) := by
  have h := absent_id_not_found wDB "zz" ⟨none, none, none, none⟩ ⟨none, none⟩ 0
  exact ⟨(h.1 (by decide)).1, (h.1 (by decide)).2.2,
         (h.2.1 (by decide)).1, (h.2.1 (by decide)).2.2 (by decide)⟩

/-- C7 (amended): for an existing category id and any partial input with at
least one field present, `updateCategory` merges exactly the given fields
onto the existing record, returns the merged record, and stores it; for the
empty partial the engine update rejects the empty assignment set ("No values
to set"), so the call faults instead of merging; for an absent id it returns
the not-found sentinel before any engine call, so even the empty partial is
harmless there. -/
theorem updateCategory_merge_nonempty (db : DB) (id : String) (u : UpdateCategory) :
    (∀ c, getCategory db id = some c → ¬(u.name = none ∧ u.color = none) →
       updateCategory db id u =
         some (⟨db.categories.map
                  (fun c0 => if c0.id == id then applyCategoryUpdate u c0 else c0),
                db.notes⟩,
               some ⟨c.id, u.name.getD c.name, u.color.getD c.color, c.createdAt⟩) ∧
       getCategory
           ⟨db.categories.map
              (fun c0 => if c0.id == id then applyCategoryUpdate u c0 else c0),
            db.notes⟩ id =
         some ⟨c.id, u.name.getD c.name, u.color.getD c.color, c.createdAt⟩) ∧
    (∀ c, getCategory db id = some c → u.name = none → u.color = none →
       updateCategory db id u = none) ∧
    (getCategory db id = none → updateCategory db id u = some (db, none)) := by
  refine ⟨?_, ?_, ?_⟩
  · intro c hc hne
    have happ : applyCategoryUpdate u c =
        ⟨c.id, u.name.getD c.name, u.color.getD c.color, c.createdAt⟩ := rfl
    constructor
    · unfold updateCategory updateCategoryRows
      rw [hc, if_neg hne]
      simp [happ]
    · have hmap := find?_map_conditional (fun c : Category => c.id == id)
        (applyCategoryUpdate u) (fun _ => rfl) db.categories
      unfold getCategory
      simp only
      rw [hmap]
      unfold getCategory at hc
      rw [hc]
      simp [happ]
  · intro c hc hn hcol
    unfold updateCategory updateCategoryRows
    rw [hc, if_pos ⟨hn, hcol⟩]
    rfl
  · intro h
    unfold updateCategory
    rw [h]

/-- C7 counterexample to the claim as stated: on a concrete store with an
existing category, the empty partial does not merge-and-return — the engine
rejects the empty assignment set and the call faults. -/
theorem updateCategory_empty_partial_counterexample :
    getCategory wDB "c1" = some wCat ∧
    updateCategory wDB "c1" ⟨none, none⟩ = none := by decide

/-- C7 witness: a name-only update of an existing category merges and stores
just that field, and an absent id yields the sentinel even for the empty
partial. -/
theorem updateCategory_merge_nonempty_witness :
    updateCategory wDB "c1" ⟨some "Renamed", none⟩ =
      some (⟨[⟨"c1", "Renamed", "#3b82f6", 0⟩], [wRow]⟩,
            some ⟨"c1", "Renamed", "#3b82f6", 0⟩) ∧
    updateCategory wDB "zz" ⟨none, none⟩ = some (wDB, none) := by
  have h := updateCategory_merge_nonempty wDB "c1" ⟨some "Renamed", none⟩
  refine ⟨(h.1 wCat (by decide) (by simp)).1, ?_⟩
  exact (updateCategory_merge_nonempty wDB "zz" ⟨none, none⟩).2.2 (by decide)

theorem beq_comm_str (a b : String) : (a == b) = (b == a) := by
  by_cases h : a = b
  · subst h; rfl
  · simp [h, Ne.symm h]

theorem countsFold_spec (notes : List NoteRow) (acc : String → Nat) (cid : String) :
    (notes.foldl
      (fun counts n => fun k => if k == n.categoryId then counts k + 1 else counts k)
      acc) cid
      = acc cid + (notes.filter (fun n => n.categoryId == cid)).length := by
  induction notes generalizing acc with
  | nil => simp
  | cons n ns ih =>
    simp only [List.foldl_cons, ih]
    by_cases h : cid = n.categoryId
    · subst h
      simp [List.filter_cons]
      omega
    · simp [List.filter_cons, h, Ne.symm h]

theorem sum_boole_nat {α : Type} (l : List α) (p : α → Bool) :
    (l.map (fun a => if p a then 1 else 0)).sum = l.countP p := by
  induction l with
  | nil => simp
  | cons a as ih =>
    by_cases h : p a = true <;> simp [List.countP_cons, h, ih] <;> omega

theorem sum_map_add_nat {α : Type} (l : List α) (f g : α → Nat) :
    (l.map (fun i => f i + g i)).sum = (l.map f).sum + (l.map g).sum := by
  induction l with
  | nil => simp
  | cons a as ih => simp [ih]; ring

theorem countP_id_eq_one (cats : List Category) (k : String)
    (hnd : (cats.map (fun c => c.id)).Nodup) (hex : ∃ c ∈ cats, c.id = k) :
    cats.countP (fun c => k == c.id) = 1 := by
  have h1 : cats.countP (fun c => k == c.id) = List.count k (cats.map (fun c => c.id)) := by
    rw [List.count_eq_countP, List.countP_map]
    apply List.countP_congr
    intro c _
    exact (beq_comm_str k c.id).symm ▸ Iff.rfl
  rw [h1]
  obtain ⟨c, hc, hck⟩ := hex
  exact List.count_eq_one_of_mem hnd (hck ▸ List.mem_map_of_mem (fun c => c.id) hc)

theorem sum_category_filter_lengths (cats : List Category)
    (hnd : (cats.map (fun c => c.id)).Nodup) :
    ∀ notes : List NoteRow,
      (∀ n ∈ notes, ∃ c ∈ cats, c.id = n.categoryId) →
      (cats.map (fun c => (notes.filter (fun n => n.categoryId == c.id)).length)).sum
        = notes.length := by
  intro notes
  induction notes with
  | nil => intro _; simp
  | cons n ns ih =>
    intro horph
    have hsplit :
        (cats.map (fun c => ((n :: ns).filter (fun m => m.categoryId == c.id)).length))
          = cats.map (fun c =>
              (if n.categoryId == c.id then 1 else 0)
                + (ns.filter (fun m => m.categoryId == c.id)).length) := by
      apply List.map_congr_left
      intro c _
      by_cases h : (n.categoryId == c.id) = true
      · simp [List.filter_cons, h]
        omega
      · simp only [Bool.not_eq_true] at h
        simp [List.filter_cons, h]
    rw [hsplit, sum_map_add_nat, sum_boole_nat,
      countP_id_eq_one cats n.categoryId hnd (horph n (List.mem_cons_self n ns)),
      ih (fun m hm => horph m (List.mem_cons_of_mem n hm))]
    simp [List.length_cons]
    omega

/-- C8: `getCategoryNoteCounts` maps each category id to the number of notes
referencing it (computed by scanning all notes; ids never counted read back
as 0), and — category ids being unique and every note referencing an
existing category — the counts over all categories sum to the total number
of notes. -/
theorem getCategoryNoteCounts_spec (db : DB) :
    (∀ cid, getCategoryNoteCounts db cid
       = (db.notes.filter (fun n => n.categoryId == cid)).length) ∧
    ((db.categories.map (fun c => c.id)).Nodup → orphanFree db →
       (db.categories.map (fun c => getCategoryNoteCounts db c.id)).sum
         = db.notes.length) := by
  have hpt : ∀ cid, getCategoryNoteCounts db cid
      = (db.notes.filter (fun n => n.categoryId == cid)).length := by
    intro cid
    unfold getCategoryNoteCounts
    rw [countsFold_spec]
    omega
  refine ⟨hpt, ?_⟩
  intro hnd horph
  have hmap : db.categories.map (fun c => getCategoryNoteCounts db c.id)
      = db.categories.map (fun c =>
          (db.notes.filter (fun n => n.categoryId == c.id)).length) :=
    List.map_congr_left (fun c _ => hpt c.id)
  rw [hmap]
  exact sum_category_filter_lengths db.categories hnd db.notes horph

/-- C8 witness: on a concrete store with unique category ids and no orphan
notes, the counts sum to the note total. -/
theorem getCategoryNoteCounts_spec_witness :
    (wDB2.categories.map (fun c => getCategoryNoteCounts wDB2 c.id)).sum
      = wDB2.notes.length :=
  (getCategoryNoteCounts_spec wDB2).2 (by decide) (by decide)

/-- A successful engine insert into `notes` preserves the referential
invariant: the engine only accepts rows whose foreign key is satisfied. -/
theorem insertNoteRow_orphanFree {db db' : DB} {r : NoteRow}
    (h : insertNoteRow db r = some db') (horph : orphanFree db) : orphanFree db' := by
  unfold insertNoteRow at h
  split at h
  next hfk =>
    obtain rfl := Option.some_inj.mp h
    intro m hm
    rcases List.mem_append.mp hm with hold | hnew
    · exact horph m hold
    · obtain ⟨c, hc, hcid⟩ := List.any_eq_true.mp hfk
      rw [List.mem_singleton.mp hnew]
      exact ⟨c, hc, beq_iff_eq.mp hcid⟩
  next => exact Option.noConfusion h

/-- A successful engine update of `notes` rows preserves the referential
invariant. -/
theorem updateNoteRows_orphanFree {db db' : DB} {id : String} {u : UpdateNote} {now : Nat}
    (h : updateNoteRows db id u now = some db') (horph : orphanFree db) : orphanFree db' := by
  unfold updateNoteRows at h
  cases hu : u.categoryId with
  | none =>
    rw [hu] at h
    dsimp only at h
    obtain rfl := Option.some_inj.mp h
    intro m hm
    obtain ⟨r0, hr0, hfr⟩ := List.mem_map.mp hm
    by_cases hid : (r0.id == id) = true
    · rw [if_pos hid] at hfr
      have hsame : m.categoryId = r0.categoryId := by
        rw [← hfr]; simp [applyNoteRowUpdate, hu]
      rw [hsame]
      exact horph r0 hr0
    · rw [if_neg hid] at hfr
      rw [← hfr]
      exact horph r0 hr0
  | some c =>
    rw [hu] at h
    dsimp only at h
    split at h
    next => exact Option.noConfusion h
    next hguard =>
      obtain rfl := Option.some_inj.mp h
      intro m hm
      obtain ⟨r0, hr0, hfr⟩ := List.mem_map.mp hm
      by_cases hid : (r0.id == id) = true
      · rw [if_pos hid] at hfr
        have hany : db.notes.any (fun r => r.id == id) = true :=
          List.any_eq_true.mpr ⟨r0, hr0, hid⟩
        have hfk : fkSatisfied db c = true := by
          by_contra hnfk
          exact hguard (by simp [hany, hnfk])
        have hcat : m.categoryId = c := by
          rw [← hfr]; simp [applyNoteRowUpdate, hu]
        obtain ⟨cc, hcc, hccid⟩ := List.any_eq_true.mp hfk
        exact ⟨cc, hcc, by rw [hcat]; exact beq_iff_eq.mp hccid⟩
      · rw [if_neg hid] at hfr
        rw [← hfr]
        exact horph r0 hr0

/-- C5: the referential invariant — every note's `categoryId` names an
existing category — is preserved by each write-time operation: a successful
`createNote` (the engine enforces the foreign key on insert), a successful
`updateNote` (the engine enforces it on update), and `deleteCategory` (which
removes the category's notes before the category row). -/
theorem orphanFree_preserved (db : DB) :
    (∀ id now n db2 note, createNote db id now n = some (db2, note) →
       orphanFree db → orphanFree db2) ∧
    (∀ id u now db2 res, updateNote db id u now = some (db2, res) →
       orphanFree db → orphanFree db2) ∧
    (∀ id, orphanFree db → orphanFree (deleteCategory db id).1) := by
  refine ⟨?_, ?_, ?_⟩
  · intro id now nn db2 note h horph
    unfold createNote at h
    obtain ⟨db', hins, hmap⟩ := Option.map_eq_some'.mp h
    injection hmap with h1 h2
    rw [← h1]
    exact insertNoteRow_orphanFree hins horph
  · intro id u now db2 res h horph
    unfold updateNote at h
    cases hget : getNote db id with
    | none =>
      rw [hget] at h
      obtain heq := Option.some_inj.mp h
      injection heq with h1 h2
      rw [← h1]
      exact horph
    | some existing =>
      rw [hget] at h
      obtain ⟨db', hupd, hmap⟩ := Option.map_eq_some'.mp h
      injection hmap with h1 h2
      rw [← h1]
      exact updateNoteRows_orphanFree hupd horph
  · intro id horph
    unfold deleteCategory deleteNoteRowsByCategory deleteCategoryRow
    intro r hr
    simp only at hr
    have hr' : r ∈ db.notes.filter (fun n => !(n.categoryId == id)) := by
      split at hr
      · exact List.mem_of_mem_filter hr
      · exact hr
    have hmem : r ∈ db.notes := List.mem_of_mem_filter hr'
    have hne : (r.categoryId == id) = false := by
      have := (List.mem_filter.mp hr').2
      simpa using this
    obtain ⟨c, hc, hcid⟩ := horph r hmem
    refine ⟨c, List.mem_filter.mpr ⟨hc, ?_⟩, hcid⟩
    simp only [Bool.not_eq_eq_eq_not, Bool.not_true, beq_eq_false_iff_ne, ne_eq]
    intro hEq
    rw [hEq] at hcid
    rw [hcid] at hne
    simp at hne

/-- C5 witness: a successful note creation from a concrete orphan-free store
keeps the store orphan-free, as does deleting one of its categories. -/
theorem orphanFree_preserved_witness :
    orphanFree (deleteCategory wDB2 "c1").1 ∧
    ∀ db2 note,
      createNote wDB2 "n9" 3 ⟨"T", none, "c2", some ["a"]⟩ = some (db2, note) →
        orphanFree db2 := by
  refine ⟨(orphanFree_preserved wDB2).2.2 "c1" (by decide), ?_⟩
  intro db2 note h
  exact (orphanFree_preserved wDB2).1 "n9" 3 ⟨"T", none, "c2", some ["a"]⟩ db2 note h
    (by decide)


/-- C3: updating an existing note with only a title merges just that field:
the returned and stored record keeps `content`, `categoryId` and `tags`
unchanged, carries the new title, and has `updatedAt` refreshed to the
current time (hence strictly above the old `updatedAt` whenever the clock
advanced); an absent id yields the not-found sentinel with no change. -/
theorem updateNote_title_frame (db : DB) (id X : String) (now : Nat) :
    (∀ N, getNote db id = some N →
       (N.updatedAt < now →
         N.updatedAt <
           (⟨N.id, X, N.content, N.categoryId, N.tags, N.createdAt, now⟩ : Note).updatedAt) ∧
       ∃ db2, updateNote db id (titleOnlyUpdate X) now =
           some (db2, some ⟨N.id, X, N.content, N.categoryId, N.tags, N.createdAt, now⟩) ∧
         getNote db2 id =
           some ⟨N.id, X, N.content, N.categoryId, N.tags, N.createdAt, now⟩ ∧
         db2.categories = db.categories) ∧
    ((∀ r ∈ db.notes, r.id ≠ id) →
       updateNote db id (titleOnlyUpdate X) now = some (db, none)) := by
  constructor
  · intro N hget0
    refine ⟨fun h => h, ?_⟩
    have hget : (db.notes.find? (fun r => r.id == id)).bind noteFromRow = some N := hget0
    obtain ⟨r0, hfind, hrow⟩ := Option.bind_eq_some.mp hget
    have hrow' := hrow
    unfold noteFromRow at hrow'
    obtain ⟨ts, hts, hN⟩ := Option.map_eq_some'.mp hrow'
    refine ⟨⟨db.categories,
      db.notes.map (fun r =>
        if r.id == id then applyNoteRowUpdate (titleOnlyUpdate X) now r else r)⟩,
      ?_, ?_, rfl⟩
    · unfold updateNote
      rw [hget0]
      rw [← hN]
      rfl
    · have hmap := find?_map_conditional (fun r : NoteRow => r.id == id)
        (applyNoteRowUpdate (titleOnlyUpdate X) now) (fun _ => rfl) db.notes
      unfold getNote
      simp only
      rw [hmap, hfind]
      show noteFromRow (applyNoteRowUpdate (titleOnlyUpdate X) now r0) =
        some ⟨N.id, X, N.content, N.categoryId, N.tags, N.createdAt, now⟩
      unfold noteFromRow applyNoteRowUpdate
      simp only [titleOnlyUpdate, Option.map_none, Option.map_none', Option.getD_none, Option.getD_some]
      rw [hts]
      rw [← hN]
      rfl
  · intro habs
    have hfind : db.notes.find? (fun r => r.id == id) = none :=
      List.find?_eq_none.mpr (fun r hr => by simpa using habs r hr)
    have hget : getNote db id = none := by
      unfold getNote; rw [hfind]; rfl
    unfold updateNote
    rw [hget]

/-- C3 witness: a concrete title-only update leaves content, category and
tags in place and stamps the new time. -/
theorem updateNote_title_frame_witness :
    wNote.updatedAt < 9 ∧
    ∃ db2, updateNote wDB "n1" (titleOnlyUpdate "X") 9 =
        some (db2, some ⟨wNote.id, "X", wNote.content, wNote.categoryId,
                         wNote.tags, wNote.createdAt, 9⟩) ∧
      getNote db2 "n1" =
        some ⟨wNote.id, "X", wNote.content, wNote.categoryId,
              wNote.tags, wNote.createdAt, 9⟩ :=
  ⟨by decide,
   Exists.elim ((updateNote_title_frame wDB "n1" "X" 9).1 wNote (by decide)).2
     (fun db2 hc => ⟨db2, hc.1, hc.2.1⟩)⟩
theorem hexVal_hexDigit : ∀ n, n < 16 → hexVal (hexDigit n) = some n := by
  intro n h
  interval_cases n <;> decide

theorem parseStringBody_escChar (c : Char) (tail : List Char) :
    parseStringBody (escChar c ++ tail) = (parseStringBody tail).map (fun p => (c :: p.1, p.2)) := by
  by_cases h1 : c = '"'
  · subst h1
    show parseStringBody ('\\' :: '"' :: tail) = _
    conv_lhs => rw [parseStringBody.eq_def]
    simp
  by_cases h2 : c = '\\'
  · subst h2
    show parseStringBody ('\\' :: '\\' :: tail) = _
    conv_lhs => rw [parseStringBody.eq_def]
    simp
  by_cases h3 : c.toNat < 32
  · by_cases hb : c = Char.ofNat 8
    · subst hb
      show parseStringBody ('\\' :: 'b' :: tail) = _
      conv_lhs => rw [parseStringBody.eq_def]
      simp
    by_cases ht : c = Char.ofNat 9
    · subst ht
      show parseStringBody ('\\' :: 't' :: tail) = _
      conv_lhs => rw [parseStringBody.eq_def]
      simp
    by_cases hn : c = Char.ofNat 10
    · subst hn
      show parseStringBody ('\\' :: 'n' :: tail) = _
      conv_lhs => rw [parseStringBody.eq_def]
      simp
    by_cases hf : c = Char.ofNat 12
    · subst hf
      show parseStringBody ('\\' :: 'f' :: tail) = _
      conv_lhs => rw [parseStringBody.eq_def]
      simp
    by_cases hr : c = Char.ofNat 13
    · subst hr
      show parseStringBody ('\\' :: 'r' :: tail) = _
      conv_lhs => rw [parseStringBody.eq_def]
      simp
    · have hesc : escChar c ++ tail =
          '\\' :: 'u' :: '0' :: '0' :: hexDigit (c.toNat / 16) :: hexDigit (c.toNat % 16) :: tail := by
        simp [escChar, h1, h2, h3, hb, ht, hn, hf, hr]
      rw [hesc]
      conv_lhs => rw [parseStringBody.eq_def]
      norm_num
      rw [hexVal_hexDigit (c.toNat / 16) (by omega), hexVal_hexDigit (c.toNat % 16) (by omega)]
      simp [hexVal]
      have hcode : c.toNat / 16 * 16 + c.toNat % 16 = c.toNat := by omega
      simp only [hcode, Char.ofNat_toNat]
  · have hesc : escChar c ++ tail = c :: tail := by
      simp [escChar, h1, h2, h3]
    rw [hesc]
    conv_lhs => rw [parseStringBody.eq_def]
    simp [h1, h2]

theorem parseStringBody_encode (s tail : List Char) :
    parseStringBody (s.flatMap escChar ++ ('"' :: tail)) = some (s, tail) := by
  induction s with
  | nil =>
    show parseStringBody ([] ++ ('"' :: tail)) = some ([], tail)
    rw [List.nil_append]
    conv_lhs => rw [parseStringBody.eq_def]
    simp
  | cons c cs ih =>
    show parseStringBody ((escChar c ++ cs.flatMap escChar) ++ ('"' :: tail)) = _
    rw [List.append_assoc, parseStringBody_escChar, ih]
    rfl

theorem encodeStringChars_len (s : List Char) :
    (encodeStringChars s).length = (s.flatMap escChar).length + 2 := by
  simp [encodeStringChars]

theorem parseElemsF_encode :
    ∀ (L : List (List Char)) (l : List Char) (fuel : Nat),
      (encodeStringChars l ++ encodeTagsTail L).length ≤ fuel →
      parseElemsF fuel (encodeStringChars l ++ encodeTagsTail L) = some (l :: L, []) := by
  intro L
  induction L with
  | nil =>
    intro l fuel hfuel
    have hshape : encodeStringChars l ++ encodeTagsTail [] =
        '"' :: (l.flatMap escChar ++ ('"' :: [']'])) := by
      simp [encodeStringChars, encodeTagsTail]
    obtain ⟨f, rfl⟩ : ∃ f, fuel = f + 1 := by
      refine ⟨fuel - 1, ?_⟩
      rw [hshape] at hfuel
      simp at hfuel
      omega
    rw [hshape]
    show (match parseStringBody (l.flatMap escChar ++ ('"' :: [']'])) with
      | none => none
      | some (s, rest2) =>
        match rest2 with
        | ']' :: rest3 => some ([s], rest3)
        | ',' :: rest3 => (parseElemsF f rest3).map (fun p => (s :: p.1, p.2))
        | _ => none) = some ([l], [])
    rw [parseStringBody_encode]
    rfl
  | cons l2 L' ih =>
    intro l fuel hfuel
    have hshape : encodeStringChars l ++ encodeTagsTail (l2 :: L') =
        '"' :: (l.flatMap escChar ++
          ('"' :: (',' :: (encodeStringChars l2 ++ encodeTagsTail L')))) := by
      simp [encodeStringChars, encodeTagsTail]
    obtain ⟨f, rfl⟩ : ∃ f, fuel = f + 1 := by
      refine ⟨fuel - 1, ?_⟩
      rw [hshape] at hfuel
      simp at hfuel
      omega
    rw [hshape]
    show (match parseStringBody (l.flatMap escChar ++
        ('"' :: (',' :: (encodeStringChars l2 ++ encodeTagsTail L')))) with
      | none => none
      | some (s, rest2) =>
        match rest2 with
        | ']' :: rest3 => some ([s], rest3)
        | ',' :: rest3 => (parseElemsF f rest3).map (fun p => (s :: p.1, p.2))
        | _ => none) = some (l :: l2 :: L', [])
    rw [parseStringBody_encode]
    have hf : (encodeStringChars l2 ++ encodeTagsTail L').length ≤ f := by
      rw [hshape] at hfuel
      simp at hfuel ⊢
      omega
    show (parseElemsF f (encodeStringChars l2 ++ encodeTagsTail L')).map
        (fun p => (l :: p.1, p.2)) = some (l :: l2 :: L', [])
    rw [ih l2 f hf]
    rfl

theorem String_mk_toList (s : String) : String.mk s.toList = s := rfl

theorem map_mk_toList (l : List String) : l.map (fun s => String.mk s.toList) = l := by
  induction l with
  | nil => rfl
  | cons a as ih => simp only [List.map_cons, ih, String_mk_toList, List.map_id']

theorem parseTags_encodeTags (tags : List String) :
    parseTags (encodeTags tags) = some tags := by
  cases tags with
  | nil => decide
  | cons t ts =>
    have hR : encodeStringChars t.toList ++ encodeTagsTail (ts.map String.toList) =
        '"' :: (t.toList.flatMap escChar ++ ('"' :: encodeTagsTail (ts.map String.toList))) := by
      simp [encodeStringChars]
    have htl : (encodeTags (t :: ts)).toList =
        '[' :: (encodeStringChars t.toList ++ encodeTagsTail (ts.map String.toList)) := rfl
    conv_lhs => rw [parseTags.eq_def]
    rw [htl, hR]
    show (match parseElemsF
        ('"' :: (t.toList.flatMap escChar ++
          ('"' :: encodeTagsTail (ts.map String.toList)))).length
        ('"' :: (t.toList.flatMap escChar ++
          ('"' :: encodeTagsTail (ts.map String.toList)))) with
      | some (elems, []) => some (elems.map String.mk)
      | _ => none) = some (t :: ts)
    rw [← hR, parseElemsF_encode (ts.map String.toList) t.toList _ (le_refl _)]
    show some (List.map String.mk (t.toList :: List.map String.toList ts)) = some (t :: ts)
    rw [List.map_cons, String_mk_toList, List.map_map]
    show some (t :: List.map (fun s => String.mk s.toList) ts) = some (t :: ts)
    rw [map_mk_toList]

theorem getNote_insert_fresh (db : DB) (r : NoteRow)
    (hfresh : ∀ x ∈ db.notes, x.id ≠ r.id) :
    getNote ⟨db.categories, db.notes ++ [r]⟩ r.id = noteFromRow r := by
  unfold getNote
  show (List.find? (fun x => x.id == r.id) (db.notes ++ [r])).bind noteFromRow = _
  rw [List.find?_append]
  have hnone : db.notes.find? (fun x => x.id == r.id) = none :=
    List.find?_eq_none.mpr (fun x hx => by simpa using hfresh x hx)
  rw [hnone, Option.none_or, List.find?_cons_of_pos _ (by simp)]
  rfl

/-- C4: tags round-trip — creating a note with any string-array `tags` value
(duplicates permitted) and reading it back with `getNote` yields the same
sequence, order preserved, no loss: the stored column holds
`JSON.stringify(tags)` and read-back applies `JSON.parse`. -/
theorem createNote_getNote_tags_roundtrip (db : DB) (id : String) (now : Nat)
    (title catId : String) (content : Option String) (L : List String) :
    ∀ db2 note, createNote db id now ⟨title, content, catId, some L⟩ = some (db2, note) →
      (∀ r ∈ db.notes, r.id ≠ id) →
      note.tags = L ∧ getNote db2 id = some note := by
  intro db2 note h hfresh
  unfold createNote at h
  obtain ⟨db3, hins, hmap⟩ := Option.map_eq_some'.mp h
  injection hmap with h1 h2
  subst h1
  subst h2
  refine ⟨rfl, ?_⟩
  unfold insertNoteRow at hins
  split at hins
  next hfk =>
    obtain rfl := Option.some_inj.mp hins
    refine (getNote_insert_fresh db _ hfresh).trans ?_
    unfold noteFromRow
    have hpt : parseTags (encodeTags ((some L).getD [])) = some L := parseTags_encodeTags L
    rw [show encodeTags ((some L).getD []) = encodeTags L from rfl]
    rw [parseTags_encodeTags L]
    rfl
  next => exact Option.noConfusion hins

/-- C4 witness: a concrete two-tag note round-trips through the store. -/
theorem createNote_getNote_tags_roundtrip_witness :
    ∃ db2 note, createNote wDB "n2" 7 ⟨"T", none, "c1", some ["a", "b"]⟩ =
        some (db2, note) ∧ note.tags = ["a", "b"] ∧ getNote db2 "n2" = some note := by
  have hc : createNote wDB "n2" 7 ⟨"T", none, "c1", some ["a", "b"]⟩ =
      some (⟨[wCat], [wRow, ⟨"n2", "T", "", "c1", "[\"a\",\"b\"]", 7, 7⟩]⟩,
            ⟨"n2", "T", "", "c1", ["a", "b"], 7, 7⟩) := by decide
  have h := createNote_getNote_tags_roundtrip wDB "n2" 7 "T" "c1" none ["a", "b"]
    _ _ hc (by decide)
  exact ⟨_, _, hc, h.1, h.2⟩

theorem sortByUpdatedAt_sorted (rows : List NoteRow) :
    (sortByUpdatedAt rows).Pairwise (fun a b => a.updatedAt ≤ b.updatedAt) :=
  List.sorted_insertionSort (fun a b : NoteRow => a.updatedAt ≤ b.updatedAt) rows

theorem notesFromRows_forall₂ :
    ∀ (rows : List NoteRow) (l : List Note), notesFromRows rows = some l →
      List.Forall₂ (fun (r : NoteRow) (n : Note) => noteFromRow r = some n) rows l := by
  intro rows
  induction rows with
  | nil =>
    intro l h
    unfold notesFromRows at h
    obtain rfl := Option.some_inj.mp h
    constructor
  | cons r rs ih =>
    intro l h
    unfold notesFromRows at h
    cases hr : noteFromRow r with
    | none => rw [hr] at h; exact Option.noConfusion h
    | some n =>
      rw [hr] at h
      obtain ⟨l', hl', hcons⟩ := Option.map_eq_some'.mp h
      rw [← hcons]
      exact List.Forall₂.cons hr (ih l' hl')

theorem noteFromRow_updatedAt {r : NoteRow} {n : Note}
    (h : noteFromRow r = some n) : n.updatedAt = r.updatedAt := by
  unfold noteFromRow at h
  obtain ⟨ts, hts, hn⟩ := Option.map_eq_some'.mp h
  rw [← hn]

theorem forall₂_noteFromRow_exists_left {rs : List NoteRow} {l : List Note}
    (h : List.Forall₂ (fun (r : NoteRow) (n : Note) => noteFromRow r = some n) rs l) :
    ∀ b ∈ l, ∃ a ∈ rs, noteFromRow a = some b := by
  induction h with
  | nil => intro b hb; cases hb
  | cons hR hF ih =>
    intro b hb
    rcases List.mem_cons.mp hb with hb' | hb'
    · subst hb'; exact ⟨_, List.mem_cons_self _ _, hR⟩
    · obtain ⟨a, ha, hra⟩ := ih b hb'
      exact ⟨a, List.mem_cons_of_mem _ ha, hra⟩

theorem pairwise_transfer :
    ∀ (rows : List NoteRow) (l : List Note),
      List.Forall₂ (fun (r : NoteRow) (n : Note) => noteFromRow r = some n) rows l →
      rows.Pairwise (fun a b => a.updatedAt ≤ b.updatedAt) →
      l.Pairwise (fun a b => a.updatedAt ≤ b.updatedAt) := by
  intro rows l hf
  induction hf with
  | nil => intro _; constructor
  | @cons r n rs l' hR hF ih =>
    intro hp
    cases hp with
    | cons hhead htail =>
      refine List.Pairwise.cons ?_ (ih htail)
      intro b hb
      obtain ⟨a, ha, hra⟩ := forall₂_noteFromRow_exists_left hF b hb
      rw [noteFromRow_updatedAt hR, noteFromRow_updatedAt hra]
      exact hhead a ha

/-- C1 (amended): for every stored set of notes and both optional arguments,
`listNotes` returns exactly the notes passing both filters — exact
`categoryId` equality when a non-empty `categoryId` is given and, when a
non-empty `search` is given, the SQL `LIKE` pattern `%lowercased-search%`
matching the title, the content or the serialized tags (OR semantics; `LIKE`
metacharacters in the search act as wildcards, matching is
ASCII-case-insensitive) — ordered by `updatedAt` ascending then reversed
(most recently updated first, stated here as the returned list being
pairwise non-increasing in `updatedAt`), with tags deserialized. -/
theorem getNotes_refines_listNotesSpec (db : DB) (categoryId search : Option String) :
    getNotes db categoryId search = listNotesSpec db categoryId search ∧
    (∀ l, getNotes db categoryId search = some l →
      l.Pairwise (fun a b => b.updatedAt ≤ a.updatedAt)) := by
  constructor
  · unfold getNotes listNotesSpec whereConditions
    cases hc : strTruthy categoryId <;> cases hs : strTruthy search <;>
      simp [hc, hs]
  · intro l hl
    unfold getNotes at hl
    obtain ⟨l0, hl0, hrev⟩ := Option.map_eq_some'.mp hl
    rw [← hrev, List.pairwise_reverse]
    have hpair :
        ∀ rows : List NoteRow, notesFromRows (sortByUpdatedAt rows) = some l0 →
          l0.Pairwise (fun a b => a.updatedAt ≤ b.updatedAt) := by
      intro rows h0
      exact pairwise_transfer _ _ (notesFromRows_forall₂ _ _ h0) (sortByUpdatedAt_sorted rows)
    split at hl0
    · exact hpair _ hl0
    · exact hpair _ hl0

/-- C1 counterexample to the claim as stated: with the search string `"%"`,
`listNotes` returns a note although `"%"` is not a case-insensitive
substring of its title, its content or its serialized tags — the unescaped
`LIKE` interpolation makes the metacharacter match everything. -/
theorem getNotes_substring_counterexample :
    getNotes wDB none (some "%") = some [wNote] ∧
    wRow.title = "abc" ∧ wRow.content = "x" ∧ wRow.tags = "[]" ∧
    containsCI "%" wRow.title = false ∧ containsCI "%" wRow.content = false ∧
    containsCI "%" wRow.tags = false := by decide

/-- C1 witness: on a concrete store the refinement applies, and the returned
list is pairwise non-increasing in `updatedAt`. -/
theorem getNotes_refines_listNotesSpec_witness :
    List.Pairwise (fun a b : Note => b.updatedAt ≤ a.updatedAt) [wNote] :=
  (getNotes_refines_listNotesSpec wDB none none).2 [wNote] (by decide)
